import Mathlib

/-!
# Verification of the bidirectional IMDB-distance search

A shallow embedding of `src/imdb_code.py` (`get_movie_distance`) and
`src/imdb_helper_functions.py` (`bfs`) together with proofs about the
claims of the specification.

The HTTP transport, HTML parsing and field extraction
(`cook_soup`, `get_movies_by_actor_soup`, `get_actors_by_movie_soup`)
are external collaborators (spec §1, §6); they are abstracted as an
environment `Env` mapping a person page to its extracted filmography and
a work page to its extracted cast, already truncated by the configured
`num_of_movies_limit` / `num_of_actors_limit`.  A fetch that ends in an
`aiohttp.ClientResponseError` (any non-success response, because the
session is created with `raise_for_status=True`) is modelled as
`Except.error ()`.
-/

namespace ImdbDistance

/-- Auxiliary scan for `str.replace('www.', '')`: removes every
non-overlapping occurrence of `www.` left to right, exactly as Python's
`str.replace` does. -/
def stripWWWAux : List Char → List Char
  | 'w' :: 'w' :: 'w' :: '.' :: rest => stripWWWAux rest
  | c :: rest => c :: stripWWWAux rest
  | [] => []

/-- `url.replace('www.', '')` from `get_movie_distance` (imdb_code.py
lines 88-89). -/
def removeWWW (s : String) : String := ⟨stripWWWAux s.data⟩

/-- The external page-fetch + parse + extract pipeline (spec §1, §6).
`filmography a` is `cook_soup` on the person page `a` followed by
`get_movies_by_actor_soup` (with the configured movie limit) and
`movies_parsing` (keeping the url component of each pair);
`cast m` is `cook_soup` on the work page `m` followed by
`get_actors_by_movie_soup` (with the configured actor limit) and
`actors_parsing`.  `Except.error ()` is a transport failure
(`aiohttp.ClientResponseError`). -/
structure Env where
  filmography : String → Except Unit (List String)
  cast : String → Except Unit (List String)

/-- The check-and-mark filter idiom
`[x for x in xs if not (x in seen or seen.add(x))]`
(imdb_helper_functions.py lines 104, 110, 128): keeps each element not
yet in `seen`, inserting every kept element into `seen` as it is
accepted, and returns the surviving list together with the grown set
(sets are modelled as lists up to membership). -/
def checkAndMark (seen : List String) : List String → List String × List String
  | [] => ([], seen)
  | x :: xs =>
    if x ∈ seen then checkAndMark seen xs
    else
      let r := checkAndMark (x :: seen) xs
      (x :: r.1, r.2)

/-- `asyncio.gather` of one fetch-and-extract per id: the results come
back in argument order; any transport failure fails the whole batch. -/
def fetchAll (f : String → Except Unit (List String)) : List String → Except Unit (List (List String))
  | [] => .ok []
  | x :: xs =>
    match f x with
    | .error e => .error e
    | .ok y =>
      match fetchAll f xs with
      | .error e => .error e
      | .ok ys => .ok (y :: ys)

/-- The flattened casts of a list of works: `asyncio.gather` of
`cook_soup` + `get_actors_by_movie_soup` over the works, then
`actors_parsing` (imdb_helper_functions.py lines 117-120). -/
def flatCasts (env : Env) (ms : List String) : Except Unit (List String) :=
  (fetchAll env.cast ms).map List.flatten

/-- The `while movies:` chunk loop of `bfs` (imdb_helper_functions.py
lines 114-130), with an explicit fuel argument for structural recursion
(every call supplies `fuel ≥ movies.length`; with `0 < cs` each
iteration consumes at least one movie, so the fuel base case is never
reached — with `cs = 0` the Python loop diverges) and a ghost
accumulator `fetched` recording every work page passed to `cook_soup`.
Returns `(found, small_actor_batch, fetched)`. -/
def chunkLoop (env : Env) (cs : Nat) (target : String) :
    Nat → List String → List String → List String → List String →
    Except Unit (Bool × List String × List String)
  | _, [], batch, _, fetched => .ok (false, batch, fetched)
  | 0, _ :: _, batch, _, fetched => .ok (false, batch, fetched)
  | fuel + 1, m :: ms, batch, bseen, fetched =>
    match fetchAll env.cast ((m :: ms).take cs) with
    | .error e => .error e
    | .ok castLists =>
      if target ∈ castLists.flatten then
        .ok (true, batch ++ castLists.flatten, fetched ++ (m :: ms).take cs)
      else
        chunkLoop env cs target fuel ((m :: ms).drop cs)
          (batch ++ (checkAndMark bseen castLists.flatten).1)
          (checkAndMark bseen castLists.flatten).2
          (fetched ++ (m :: ms).take cs)

/-- The chunk phase of `bfs`, started with the canonical fuel. -/
def chunkPhase (env : Env) (cs : Nat) (target : String)
    (movies batch bseen fetched : List String) :
    Except Unit (Bool × List String × List String) :=
  chunkLoop env cs target movies.length movies batch bseen fetched

/-- Result of one `bfs` call: the returned tuple
`(found, small_actor_batch, seen_actors, seen_movies)` plus two ghost
fields recording the person pages and the work pages actually fetched
(`cook_soup` calls) during the call. -/
structure BfsOut where
  found : Bool
  batch : List String
  seen_actors : List String
  seen_movies : List String
  actorFetches : List String
  movieFetches : List String
  deriving DecidableEq, Repr

/-- The level expander `bfs` (imdb_helper_functions.py lines 81-130):
filter the input batch against `seen_actors` (check-and-mark), fetch the
survivors' filmographies, flatten, filter against `seen_movies`
(check-and-mark), then run the chunk loop against `target`.  The Python
function mutates the two seen-sets in place and returns them; here they
are threaded explicitly. -/
def bfs (env : Env) (cs : Nat) (current_urls seen_actors seen_movies : List String)
    (target : String) : Except Unit BfsOut :=
  let ra := checkAndMark seen_actors current_urls
  match fetchAll env.filmography ra.1 with
  | .error e => .error e
  | .ok filmogs =>
    let rm := checkAndMark seen_movies filmogs.flatten
    match chunkPhase env cs target rm.1 [] [] [] with
    | .error e => .error e
    | .ok c => .ok ⟨c.1, c.2.1, ra.2, rm.2, ra.1, c.2.2⟩

/-- Outcome of `get_movie_distance`: a finite distance (`return` of an
int), `unreachable` (`return inf`), `blocked` (the
`raise Exception('You may have been banned')` path) or `exhausted`
(the `raise Exception('Deque is exhausted, ...')` path, which the
`except aiohttp.ClientResponseError` clause does not catch). -/
inductive SearchResult where
  | found : Nat → SearchResult
  | unreachable : SearchResult
  | blocked : SearchResult
  | exhausted : SearchResult
  deriving DecidableEq, Repr

/-- Search state at the top of the `while distance < depth_limit` loop:
the two deques of levels, the two shared seen-sets and the current
distance. -/
structure SearchState where
  forward : List (List String)
  backward : List (List String)
  seen_actors : List String
  seen_movies : List String
  distance : Nat
  deriving DecidableEq, Repr

/-- `len(set(a).intersection(set(b))) > 0`. -/
def hasCommon (a b : List String) : Bool := a.any fun x => b.contains x

/-- Outcome of one round of the search loop: either the search halts
with a result, or it continues with the successor state
(next levels enqueued, seen-sets updated, distance incremented). -/
inductive RoundResult where
  | halt : SearchResult → RoundResult
  | next : SearchState → RoundResult
  deriving DecidableEq, Repr

/-- One round of the `while distance < depth_limit` loop of
`get_movie_distance` (imdb_code.py lines 107-155): pop one level from
each deque (an `IndexError` becomes the fatal exhausted exception),
expand forward with target = end person, apply the five termination
rules in order, otherwise enqueue both next levels and increment the
distance.  A transport error in either expansion halts with `blocked`.
The `seen_actors.update(f_act)` calls of the source are no-ops (the
returned sets are the same objects, mutated in place), which the
explicit threading reproduces. -/
def searchRound (env : Env) (cs : Nat) (start_url end_url : String)
    (s : SearchState) : RoundResult :=
  match s.forward, s.backward with
  | [], _ => .halt .exhausted
  | _ :: _, [] => .halt .exhausted
  | fcur :: frest, bcur :: brest =>
    match bfs env cs fcur s.seen_actors s.seen_movies end_url with
    | .error _ => .halt .blocked
    | .ok f =>
      if f.found then .halt (.found (s.distance + 1))
      else if hasCommon f.batch bcur then .halt (.found (2 * s.distance + 1))
      else
        match bfs env cs bcur f.seen_actors f.seen_movies start_url with
        | .error _ => .halt .blocked
        | .ok b =>
          if b.found then .halt (.found (s.distance + 1))
          else if hasCommon b.batch fcur then .halt (.found (2 * s.distance + 1))
          else if hasCommon f.batch b.batch then .halt (.found (2 * s.distance + 2))
          else .next ⟨frest ++ [f.batch], brest ++ [b.batch],
                      b.seen_actors, b.seen_movies, s.distance + 1⟩

/-- The `while distance < depth_limit` loop, with fuel for structural
recursion.  Invoked with `fuel = depth_limit - distance` (see
`searchLoop`), so whenever `distance < depth_limit` the fuel is
positive and the base case is never the reason a round is skipped. -/
def searchLoopF (env : Env) (cs : Nat) (start_url end_url : String) (dl : Nat) :
    Nat → SearchState → SearchResult
  | 0, _ => .unreachable
  | fuel + 1, s =>
    if s.distance < dl then
      match searchRound env cs start_url end_url s with
      | .halt r => r
      | .next s' => searchLoopF env cs start_url end_url dl fuel s'
    else .unreachable

/-- The search loop from an arbitrary state. -/
def searchLoop (env : Env) (cs : Nat) (start_url end_url : String) (dl : Nat)
    (s : SearchState) : SearchResult :=
  searchLoopF env cs start_url end_url dl (dl - s.distance) s

/-- `get_movie_distance` (imdb_code.py lines 72-159): strip `www.` from
both urls, seed each deque with a singleton level, default the depth
limit to 3 when it is falsy (`None` or `0`), and run the round loop.
`chunk_size` also sizes the semaphore, which is pure concurrency
control and does not affect the computed result. -/
def get_movie_distance (env : Env) (actor_start_url actor_end_url : String)
    (depth_limit : Nat) (chunk_size : Nat) : SearchResult :=
  searchLoop env chunk_size (removeWWW actor_start_url) (removeWWW actor_end_url)
    (if depth_limit = 0 then 3 else depth_limit)
    ⟨[[removeWWW actor_start_url]], [[removeWWW actor_end_url]], [], [], 0⟩

/-! ## Separation predicates (for the unreachable case)

Two seed persons "share no collaborator" when the collaboration graph
splits into two components: a Bool-valued colouring of person ids (`SA`)
and of work ids (`SM`) such that extraction stays inside a colour, the
two seeds having different colours. -/

/-- The environment respects the colouring `SA`/`SM` and never reports a
transport failure: every extracted work of a person has the person's
colour, and every extracted cast member of a work has the work's
colour. -/
structure SideOk (env : Env) (SA SM : String → Bool) : Prop where
  filmography_side : ∀ a ms, env.filmography a = .ok ms → ∀ m ∈ ms, SM m = SA a
  cast_side : ∀ m ps, env.cast m = .ok ps → ∀ p ∈ ps, SA p = SM m
  filmography_total : ∀ a, ∃ ms, env.filmography a = .ok ms
  cast_total : ∀ m, ∃ ps, env.cast m = .ok ps

/-- All members of all levels have colour `v`. -/
def LevelsSide (SA : String → Bool) (v : Bool) (levels : List (List String)) : Prop :=
  ∀ l ∈ levels, ∀ x ∈ l, SA x = v

/-- Invariant of the round loop in the separated setting: every forward
level is coloured `true`, every backward level `false`, and neither
deque is empty. -/
def SepInv (SA : String → Bool) (s : SearchState) : Prop :=
  LevelsSide SA true s.forward ∧ LevelsSide SA false s.backward ∧
    s.forward ≠ [] ∧ s.backward ≠ []

/-! ## Concrete environments used as witnesses and counterexamples -/

/-- Two persons A and B sharing the single work M1. -/
def envDirect : Env where
  filmography := fun a => .ok (if a = "A" then ["M1"] else if a = "B" then ["M1"] else [])
  cast := fun m => .ok (if m = "M1" then ["A", "B"] else [])

/-- Every person-page fetch reports a transport failure. -/
def envErr : Env where
  filmography := fun _ => .error ()
  cast := fun _ => .ok []

/-- Every page is empty. -/
def envTriv : Env where
  filmography := fun _ => .ok []
  cast := fun _ => .ok []

/-- The A–(M1)–B–(M2)–D chain of the spec's distance-2 scenario. -/
def env9 : Env where
  filmography := fun a => .ok (if a = "A" then ["M1"] else if a = "D" then ["M2"] else [])
  cast := fun m => .ok (if m = "M1" then ["A", "B"] else if m = "M2" then ["B", "D"] else [])

/-- A graph where the already-seen person A re-appears in the cast of a
work (M2) discovered one round later: A–(M1)–B–(M2)–{A,C}, and a
disconnected backward component Z–(N1)–Y–(N2)–Q. -/
def env4 : Env where
  filmography := fun a =>
    .ok (if a = "A" then ["M1"] else if a = "B" then ["M2"]
         else if a = "Z" then ["N1"] else if a = "Y" then ["N2"] else [])
  cast := fun m =>
    .ok (if m = "M1" then ["B"] else if m = "N1" then ["Y"]
         else if m = "M2" then ["A", "C"] else if m = "N2" then ["Q"] else [])

/-- One person A with two works M1, M2 whose casts share X; M1 also
contains the target T. -/
def env6 : Env where
  filmography := fun a => .ok (if a = "A" then ["M1", "M2"] else [])
  cast := fun m => .ok (if m = "M1" then ["X", "T"] else if m = "M2" then ["X"] else [])

/-- Two disconnected one-edge components: A–(M1)–A and D–(M2)–D. -/
def envSep : Env where
  filmography := fun a => .ok (if a = "A" then ["M1"] else if a = "D" then ["M2"] else [])
  cast := fun m => .ok (if m = "M1" then ["A"] else if m = "M2" then ["D"] else [])

/-- Person colouring for `envSep`: the A-component. -/
def sideA : String → Bool := fun a => a == "A"

/-- Work colouring for `envSep`: the A-component. -/
def sideM : String → Bool := fun m => m == "M1"

/-- A person A whose single work M has A itself in the cast. -/
def envSelf : Env where
  filmography := fun a => .ok (if a = "A" then ["M"] else [])
  cast := fun m => .ok (if m = "M" then ["A"] else [])

/-- Casts for a three-work list chunked by 2: the target T appears in
the cast of M2 (first chunk), M3 is in the second chunk. -/
def env5 : Env where
  filmography := fun a => .ok (if a = "A" then ["M1", "M2", "M3"] else [])
  cast := fun m =>
    .ok (if m = "M1" then ["X"] else if m = "M2" then ["T"]
         else if m = "M3" then ["Y"] else [])

/-! ## Lemmas about `checkAndMark` -/

theorem checkAndMark_fst_subset {seen xs : List String} {y : String}
    (h : y ∈ (checkAndMark seen xs).1) : y ∈ xs := by
  induction xs generalizing seen with
  | nil => simp [checkAndMark] at h
  | cons x xs ih =>
    by_cases hx : x ∈ seen
    · simp only [checkAndMark, if_pos hx] at h
      exact List.mem_cons_of_mem _ (ih h)
    · simp only [checkAndMark, if_neg hx, List.mem_cons] at h
      rcases h with h | h
      · exact h ▸ List.mem_cons_self _ _
      · exact List.mem_cons_of_mem _ (ih h)

theorem checkAndMark_fst_not_seen {seen xs : List String} {y : String}
    (h : y ∈ (checkAndMark seen xs).1) : y ∉ seen := by
  induction xs generalizing seen with
  | nil => simp [checkAndMark] at h
  | cons x xs ih =>
    by_cases hx : x ∈ seen
    · simp only [checkAndMark, if_pos hx] at h
      exact ih h
    · simp only [checkAndMark, if_neg hx, List.mem_cons] at h
      rcases h with h | h
      · exact h ▸ hx
      · intro hy
        exact ih h (List.mem_cons_of_mem _ hy)

theorem checkAndMark_fst_nodup (seen xs : List String) :
    (checkAndMark seen xs).1.Nodup := by
  induction xs generalizing seen with
  | nil => simp [checkAndMark]
  | cons x xs ih =>
    by_cases hx : x ∈ seen
    · simpa only [checkAndMark, if_pos hx] using ih seen
    · simp only [checkAndMark, if_neg hx]
      refine List.nodup_cons.mpr ⟨fun hmem => ?_, ih (x :: seen)⟩
      exact checkAndMark_fst_not_seen hmem (List.mem_cons_self _ _)

theorem mem_checkAndMark_snd {seen xs : List String} {y : String} :
    y ∈ (checkAndMark seen xs).2 ↔ y ∈ seen ∨ y ∈ (checkAndMark seen xs).1 := by
  induction xs generalizing seen with
  | nil => simp [checkAndMark]
  | cons x xs ih =>
    by_cases hx : x ∈ seen
    · simp only [checkAndMark, if_pos hx]
      exact ih
    · simp only [checkAndMark, if_neg hx, List.mem_cons]
      rw [ih]
      simp only [List.mem_cons]
      tauto

theorem checkAndMark_fst_mem {seen xs : List String} {y : String}
    (hy : y ∈ xs) (hns : y ∉ seen) : y ∈ (checkAndMark seen xs).1 := by
  induction xs generalizing seen with
  | nil => simp at hy
  | cons x xs ih =>
    rcases List.mem_cons.mp hy with rfl | hy'
    · simp only [checkAndMark, if_neg hns]
      exact List.mem_cons_self _ _
    · by_cases hx : x ∈ seen
      · simp only [checkAndMark, if_pos hx]
        exact ih hy' hns
      · simp only [checkAndMark, if_neg hx]
        by_cases hxy : y = x
        · exact hxy ▸ List.mem_cons_self _ _
        · refine List.mem_cons_of_mem _ (ih hy' ?_)
          simp only [List.mem_cons]
          tauto

/-! ## Lemmas about `fetchAll` -/

theorem fetchAll_ok_forall {f : String → Except Unit (List String)}
    {xs : List String} {ls : List (List String)}
    (h : fetchAll f xs = .ok ls) :
    List.Forall₂ (fun x ys => f x = .ok ys) xs ls := by
  induction xs generalizing ls with
  | nil =>
    simp only [fetchAll] at h
    cases h
    exact List.Forall₂.nil
  | cons x xs ih =>
    simp only [fetchAll] at h
    cases hf : f x with
    | error e => rw [hf] at h; exact absurd h (by simp)
    | ok y =>
      rw [hf] at h
      cases hr : fetchAll f xs with
      | error e => rw [hr] at h; exact absurd h (by simp)
      | ok ys =>
        rw [hr] at h
        simp only [Except.ok.injEq] at h
        cases h
        exact List.Forall₂.cons hf (ih hr)

theorem fetchAll_ok_of_total {f : String → Except Unit (List String)}
    (htot : ∀ x, ∃ ys, f x = .ok ys) (xs : List String) :
    ∃ ls, fetchAll f xs = .ok ls := by
  induction xs with
  | nil => exact ⟨[], rfl⟩
  | cons x xs ih =>
    obtain ⟨y, hy⟩ := htot x
    obtain ⟨ls, hls⟩ := ih
    refine ⟨y :: ls, ?_⟩
    simp only [fetchAll]
    rw [hy, hls]

theorem fetchAll_flatten_mem {f : String → Except Unit (List String)}
    {xs : List String} {ls : List (List String)} {y : String}
    (h : fetchAll f xs = .ok ls) (hy : y ∈ ls.flatten) :
    ∃ x ∈ xs, ∃ ys, f x = .ok ys ∧ y ∈ ys := by
  induction xs generalizing ls with
  | nil =>
    simp only [fetchAll] at h
    cases h
    simp at hy
  | cons x xs ih =>
    simp only [fetchAll] at h
    cases hf : f x with
    | error e => rw [hf] at h; exact absurd h (by simp)
    | ok ys =>
      rw [hf] at h
      cases hr : fetchAll f xs with
      | error e => rw [hr] at h; exact absurd h (by simp)
      | ok ls' =>
        rw [hr] at h
        simp only [Except.ok.injEq] at h
        cases h
        simp only [List.flatten_cons, List.mem_append] at hy
        rcases hy with hy | hy
        · exact ⟨x, List.mem_cons_self _ _, ys, hf, hy⟩
        · obtain ⟨x', hx', ys', hys', hy'⟩ := ih hr hy
          exact ⟨x', List.mem_cons_of_mem _ hx', ys', hys', hy'⟩

theorem fetchAll_mem_flatten {f : String → Except Unit (List String)}
    {xs : List String} {ls : List (List String)} {x y : String} {ys : List String}
    (h : fetchAll f xs = .ok ls) (hx : x ∈ xs) (hfx : f x = .ok ys)
    (hy : y ∈ ys) : y ∈ ls.flatten := by
  induction xs generalizing ls with
  | nil => simp at hx
  | cons a xs ih =>
    simp only [fetchAll] at h
    cases hf : f a with
    | error e => rw [hf] at h; exact absurd h (by simp)
    | ok ysa =>
      rw [hf] at h
      cases hr : fetchAll f xs with
      | error e => rw [hr] at h; exact absurd h (by simp)
      | ok ls' =>
        rw [hr] at h
        simp only [Except.ok.injEq] at h
        cases h
        simp only [List.flatten_cons, List.mem_append]
        rcases List.mem_cons.mp hx with rfl | hx'
        · rw [hfx] at hf
          cases hf
          exact Or.inl hy
        · exact Or.inr (ih hr hx')

/-! ## The chunk loop: fuel irrelevance and unfolding -/

theorem chunkLoop_nil (env : Env) (cs : Nat) (target : String)
    (fuel : Nat) (batch bseen fetched : List String) :
    chunkLoop env cs target fuel [] batch bseen fetched = .ok (false, batch, fetched) := by
  cases fuel <;> rfl

theorem chunkLoop_fuel_irrel (env : Env) (cs : Nat) (target : String)
    (hcs : 0 < cs) :
    ∀ f1 f2 movies batch bseen fetched, movies.length ≤ f1 → movies.length ≤ f2 →
      chunkLoop env cs target f1 movies batch bseen fetched =
      chunkLoop env cs target f2 movies batch bseen fetched := by
  intro f1
  induction f1 with
  | zero =>
    intro f2 movies batch bseen fetched h1 _
    have : movies = [] := List.eq_nil_of_length_eq_zero (Nat.le_zero.mp h1)
    subst this
    rw [chunkLoop_nil, chunkLoop_nil]
  | succ f1 ih =>
    intro f2 movies batch bseen fetched h1 h2
    match movies, f2 with
    | [], f2 => rw [chunkLoop_nil, chunkLoop_nil]
    | m :: ms, 0 => simp at h2
    | m :: ms, f2 + 1 =>
      simp only [chunkLoop]
      cases hfa : fetchAll env.cast ((m :: ms).take cs) with
      | error e => rfl
      | ok castLists =>
        dsimp only
        by_cases ht : target ∈ castLists.flatten
        · rw [if_pos ht, if_pos ht]
        · rw [if_neg ht, if_neg ht]
          have hlen : ((m :: ms).drop cs).length ≤ f1 := by
            simp only [List.length_drop, List.length_cons] at h1 ⊢
            omega
          have hlen2 : ((m :: ms).drop cs).length ≤ f2 := by
            simp only [List.length_drop, List.length_cons] at h2 ⊢
            omega
          exact ih f2 _ _ _ _ hlen hlen2

theorem chunkPhase_nil (env : Env) (cs : Nat) (target : String)
    (batch bseen fetched : List String) :
    chunkPhase env cs target [] batch bseen fetched = .ok (false, batch, fetched) := rfl

/-- One unfolding of the chunk phase: process the first chunk, then
either short-circuit or continue on the remaining movies. -/
theorem chunkPhase_cons (env : Env) (cs : Nat) (target : String)
    (hcs : 0 < cs) {movies : List String} (hne : movies ≠ [])
    (batch bseen fetched : List String) :
    chunkPhase env cs target movies batch bseen fetched =
      match fetchAll env.cast (movies.take cs) with
      | .error e => .error e
      | .ok castLists =>
        if target ∈ castLists.flatten then
          .ok (true, batch ++ castLists.flatten, fetched ++ movies.take cs)
        else
          chunkPhase env cs target (movies.drop cs)
            (batch ++ (checkAndMark bseen castLists.flatten).1)
            (checkAndMark bseen castLists.flatten).2
            (fetched ++ movies.take cs) := by
  match movies with
  | [] => exact absurd rfl hne
  | m :: ms =>
    show chunkLoop env cs target (ms.length + 1) (m :: ms) batch bseen fetched = _
    simp only [chunkLoop]
    cases hfa : fetchAll env.cast ((m :: ms).take cs) with
    | error e => rfl
    | ok castLists =>
      dsimp only
      by_cases ht : target ∈ castLists.flatten
      · rw [if_pos ht, if_pos ht]
      · rw [if_neg ht, if_neg ht]
        unfold chunkPhase
        refine chunkLoop_fuel_irrel env cs target hcs _ _ _ _ _ _ ?_ ?_
        · simp only [List.length_drop, List.length_cons]
          omega
        · exact le_refl _

/-! ## Round and loop characterizations -/

/-- The round outcome when both frontiers hold a level and both
expansions succeed: exactly the rule table of the source loop body. -/
theorem searchRound_eq_ok {env : Env} {cs : Nat} {su eu : String} {s : SearchState}
    {fcur bcur : List String} {frest brest : List (List String)} {f b : BfsOut}
    (hf : s.forward = fcur :: frest) (hb : s.backward = bcur :: brest)
    (hbf : bfs env cs fcur s.seen_actors s.seen_movies eu = .ok f)
    (hbb : bfs env cs bcur f.seen_actors f.seen_movies su = .ok b) :
    searchRound env cs su eu s =
      if f.found then .halt (.found (s.distance + 1))
      else if hasCommon f.batch bcur then .halt (.found (2 * s.distance + 1))
      else if b.found then .halt (.found (s.distance + 1))
      else if hasCommon b.batch fcur then .halt (.found (2 * s.distance + 1))
      else if hasCommon f.batch b.batch then .halt (.found (2 * s.distance + 2))
      else .next ⟨frest ++ [f.batch], brest ++ [b.batch],
                  b.seen_actors, b.seen_movies, s.distance + 1⟩ := by
  unfold searchRound
  rw [hf, hb]
  dsimp only
  rw [hbf]
  dsimp only
  rw [hbb]

theorem searchRound_forward_nil {env : Env} {cs : Nat} {su eu : String} {s : SearchState}
    (hf : s.forward = []) : searchRound env cs su eu s = .halt .exhausted := by
  unfold searchRound
  rw [hf]

theorem searchRound_backward_nil {env : Env} {cs : Nat} {su eu : String} {s : SearchState}
    (hb : s.backward = []) : searchRound env cs su eu s = .halt .exhausted := by
  unfold searchRound
  rw [hb]
  cases s.forward <;> rfl

theorem searchRound_forward_error {env : Env} {cs : Nat} {su eu : String} {s : SearchState}
    {fcur bcur : List String} {frest brest : List (List String)}
    (hf : s.forward = fcur :: frest) (hb : s.backward = bcur :: brest)
    (hbf : bfs env cs fcur s.seen_actors s.seen_movies eu = .error ()) :
    searchRound env cs su eu s = .halt .blocked := by
  unfold searchRound
  rw [hf, hb]
  dsimp only
  rw [hbf]

theorem searchRound_backward_error {env : Env} {cs : Nat} {su eu : String} {s : SearchState}
    {fcur bcur : List String} {frest brest : List (List String)} {f : BfsOut}
    (hf : s.forward = fcur :: frest) (hb : s.backward = bcur :: brest)
    (hbf : bfs env cs fcur s.seen_actors s.seen_movies eu = .ok f)
    (hff : f.found = false) (hc : hasCommon f.batch bcur = false)
    (hbb : bfs env cs bcur f.seen_actors f.seen_movies su = .error ()) :
    searchRound env cs su eu s = .halt .blocked := by
  unfold searchRound
  rw [hf, hb]
  dsimp only
  rw [hbf]
  dsimp only
  rw [hbb, if_neg (by simp [hff]), if_neg (by simp [hc])]

/-- A continuing round increments the distance by exactly one. -/
theorem searchRound_next_distance {env : Env} {cs : Nat} {su eu : String}
    {s s' : SearchState} (h : searchRound env cs su eu s = .next s') :
    s'.distance = s.distance + 1 := by
  unfold searchRound at h
  repeat' split at h
  all_goals first
    | (cases h; rfl)
    | cases h

/-- Any finite distance a round halts with is at most `2·distance + 2`. -/
theorem searchRound_halt_found_le {env : Env} {cs : Nat} {su eu : String}
    {s : SearchState} {n : Nat}
    (h : searchRound env cs su eu s = .halt (.found n)) :
    n ≤ 2 * s.distance + 2 := by
  unfold searchRound at h
  repeat' split at h
  all_goals first
    | (simp at h; omega)
    | (simp at h)

theorem searchLoop_stop {env : Env} {cs : Nat} {su eu : String} {dl : Nat}
    {s : SearchState} (h : ¬ s.distance < dl) :
    searchLoop env cs su eu dl s = .unreachable := by
  unfold searchLoop
  cases hk : dl - s.distance with
  | zero => rfl
  | succ k =>
    simp only [searchLoopF]
    rw [if_neg h]

theorem searchLoop_halt {env : Env} {cs : Nat} {su eu : String} {dl : Nat}
    {s : SearchState} {r : SearchResult} (h : s.distance < dl)
    (hr : searchRound env cs su eu s = .halt r) :
    searchLoop env cs su eu dl s = r := by
  unfold searchLoop
  obtain ⟨k, hk⟩ : ∃ k, dl - s.distance = k + 1 := ⟨dl - s.distance - 1, by omega⟩
  rw [hk]
  simp only [searchLoopF]
  rw [if_pos h, hr]

theorem searchLoop_next {env : Env} {cs : Nat} {su eu : String} {dl : Nat}
    {s s' : SearchState} (h : s.distance < dl)
    (hr : searchRound env cs su eu s = .next s') :
    searchLoop env cs su eu dl s = searchLoop env cs su eu dl s' := by
  unfold searchLoop
  obtain ⟨k, hk⟩ : ∃ k, dl - s.distance = k + 1 := ⟨dl - s.distance - 1, by omega⟩
  rw [hk]
  simp only [searchLoopF]
  rw [if_pos h, hr]
  have hd := searchRound_next_distance hr
  have hk' : k = dl - s'.distance := by omega
  rw [hk']

theorem searchRound_forward_found {env : Env} {cs : Nat} {su eu : String} {s : SearchState}
    {fcur bcur : List String} {frest brest : List (List String)} {f : BfsOut}
    (hf : s.forward = fcur :: frest) (hb : s.backward = bcur :: brest)
    (hbf : bfs env cs fcur s.seen_actors s.seen_movies eu = .ok f)
    (hff : f.found = true) :
    searchRound env cs su eu s = .halt (.found (s.distance + 1)) := by
  unfold searchRound
  rw [hf, hb]
  dsimp only
  rw [hbf]
  dsimp only
  rw [if_pos hff]

theorem searchLoopF_found_le {env : Env} {cs : Nat} {su eu : String} {dl : Nat} :
    ∀ fuel (s : SearchState) n, searchLoopF env cs su eu dl fuel s = .found n →
      n ≤ 2 * dl := by
  intro fuel
  induction fuel with
  | zero =>
    intro s n h
    exact absurd h (by simp [searchLoopF])
  | succ fuel ih =>
    intro s n h
    simp only [searchLoopF] at h
    by_cases hd : s.distance < dl
    · rw [if_pos hd] at h
      cases hr : searchRound env cs su eu s with
      | halt r =>
        rw [hr] at h
        dsimp only at h
        rw [h] at hr
        have := searchRound_halt_found_le hr
        omega
      | next s' =>
        rw [hr] at h
        exact ih s' n h
    · rw [if_neg hd] at h
      exact absurd h (by simp)

/-! ## Chunk-phase properties -/

theorem flatCasts_ok {env : Env} {ms ck : List String}
    (h : flatCasts env ms = .ok ck) :
    ∃ cls, fetchAll env.cast ms = .ok cls ∧ cls.flatten = ck := by
  unfold flatCasts at h
  cases hfa : fetchAll env.cast ms <;> rw [hfa] at h
  · simp [Except.map] at h
  · refine ⟨_, rfl, ?_⟩
    simpa [Except.map] using h

/-- Every work page fetched during the chunk phase is either in the
incoming accumulator or in the processed work list. -/
theorem chunkPhase_fetched_mem (env : Env) (cs : Nat) (target : String)
    (hcs : 0 < cs) :
    ∀ L (movies : List String), movies.length ≤ L →
      ∀ batch bseen fetched fnd b2 f2,
        chunkPhase env cs target movies batch bseen fetched = .ok (fnd, b2, f2) →
        ∀ y ∈ f2, y ∈ fetched ∨ y ∈ movies := by
  intro L
  induction L with
  | zero =>
    intro movies hlen batch bseen fetched fnd b2 f2 h y hy
    have hm : movies = [] := List.eq_nil_of_length_eq_zero (Nat.le_zero.mp hlen)
    subst hm
    rw [chunkPhase_nil] at h
    simp only [Except.ok.injEq, Prod.mk.injEq] at h
    obtain ⟨rfl, rfl, rfl⟩ := h
    exact Or.inl hy
  | succ L ih =>
    intro movies hlen batch bseen fetched fnd b2 f2 h y hy
    match movies, hlen with
    | [], _ =>
      rw [chunkPhase_nil] at h
      simp only [Except.ok.injEq, Prod.mk.injEq] at h
      obtain ⟨rfl, rfl, rfl⟩ := h
      exact Or.inl hy
    | m :: ms, hlen =>
      rw [chunkPhase_cons env cs target hcs (List.cons_ne_nil m ms)] at h
      cases hfa : fetchAll env.cast ((m :: ms).take cs) <;> rw [hfa] at h
      · exact absurd h (by simp)
      · rename_i cls
        dsimp only at h
        by_cases ht : target ∈ cls.flatten
        · rw [if_pos ht] at h
          simp only [Except.ok.injEq, Prod.mk.injEq] at h
          obtain ⟨rfl, rfl, rfl⟩ := h
          rcases List.mem_append.mp hy with hy | hy
          · exact Or.inl hy
          · exact Or.inr (List.take_subset _ _ hy)
        · rw [if_neg ht] at h
          have hlen' : ((m :: ms).drop cs).length ≤ L := by
            simp only [List.length_drop, List.length_cons] at hlen ⊢
            omega
          rcases ih _ hlen' _ _ _ _ _ _ h y hy with hy' | hy'
          · rcases List.mem_append.mp hy' with hy'' | hy''
            · exact Or.inl hy''
            · exact Or.inr (List.take_subset _ _ hy'')
          · exact Or.inr (List.drop_subset _ _ hy')

/-- If the chunk phase returns without having found the target, the
accumulated batch has no duplicates (given that the incoming batch is
duplicate-free and recorded in the incoming batch-seen set). -/
theorem chunkPhase_nodup (env : Env) (cs : Nat) (target : String)
    (hcs : 0 < cs) :
    ∀ L (movies : List String), movies.length ≤ L →
      ∀ batch bseen fetched b2 f2, batch.Nodup → (∀ x ∈ batch, x ∈ bseen) →
        chunkPhase env cs target movies batch bseen fetched = .ok (false, b2, f2) →
        b2.Nodup := by
  intro L
  induction L with
  | zero =>
    intro movies hlen batch bseen fetched b2 f2 hnd hsub h
    have hm : movies = [] := List.eq_nil_of_length_eq_zero (Nat.le_zero.mp hlen)
    subst hm
    rw [chunkPhase_nil] at h
    simp only [Except.ok.injEq, Prod.mk.injEq] at h
    obtain ⟨-, rfl, rfl⟩ := h
    exact hnd
  | succ L ih =>
    intro movies hlen batch bseen fetched b2 f2 hnd hsub h
    match movies, hlen with
    | [], _ =>
      rw [chunkPhase_nil] at h
      simp only [Except.ok.injEq, Prod.mk.injEq] at h
      obtain ⟨-, rfl, rfl⟩ := h
      exact hnd
    | m :: ms, hlen =>
      rw [chunkPhase_cons env cs target hcs (List.cons_ne_nil m ms)] at h
      cases hfa : fetchAll env.cast ((m :: ms).take cs) <;> rw [hfa] at h
      · exact absurd h (by simp)
      · rename_i cls
        dsimp only at h
        by_cases ht : target ∈ cls.flatten
        · rw [if_pos ht] at h
          simp at h
        · rw [if_neg ht] at h
          have hlen' : ((m :: ms).drop cs).length ≤ L := by
            simp only [List.length_drop, List.length_cons] at hlen ⊢
            omega
          refine ih _ hlen' _ _ _ _ _ ?_ ?_ h
          · refine List.Nodup.append hnd (checkAndMark_fst_nodup _ _) ?_
            intro a ha ha'
            exact checkAndMark_fst_not_seen ha' (hsub a ha)
          · intro x hx
            rcases List.mem_append.mp hx with hx | hx
            · exact mem_checkAndMark_snd.mpr (Or.inl (hsub x hx))
            · exact mem_checkAndMark_snd.mpr (Or.inr hx)

/-- If some work in the list has the target in its cast and no cast
fetch fails, the chunk phase reports found. -/
theorem chunkPhase_found (env : Env) (cs : Nat) (target : String)
    (hcs : 0 < cs) (htot : ∀ x, ∃ c, env.cast x = .ok c) :
    ∀ L (movies : List String), movies.length ≤ L →
      ∀ m cm, m ∈ movies → env.cast m = .ok cm → target ∈ cm →
      ∀ batch bseen fetched, ∃ b2 f2,
        chunkPhase env cs target movies batch bseen fetched = .ok (true, b2, f2) := by
  intro L
  induction L with
  | zero =>
    intro movies hlen m cm hm _ _ _ _ _
    have : movies = [] := List.eq_nil_of_length_eq_zero (Nat.le_zero.mp hlen)
    subst this
    simp at hm
  | succ L ih =>
    intro movies hlen m cm hm hcast htc batch bseen fetched
    match movies, hlen, hm with
    | [], _, hm => simp at hm
    | mv :: ms, hlen, hm =>
      obtain ⟨cls, hfa⟩ := fetchAll_ok_of_total htot ((mv :: ms).take cs)
      by_cases ht : target ∈ cls.flatten
      · refine ⟨batch ++ cls.flatten, fetched ++ (mv :: ms).take cs, ?_⟩
        rw [chunkPhase_cons env cs target hcs (List.cons_ne_nil mv ms), hfa]
        dsimp only
        rw [if_pos ht]
      · have hmdrop : m ∈ (mv :: ms).drop cs := by
          have hsplit := List.take_append_drop cs (mv :: ms)
          rw [← hsplit] at hm
          rcases List.mem_append.mp hm with hm' | hm'
          · exact absurd (fetchAll_mem_flatten hfa hm' hcast htc) ht
          · exact hm'
        have hlen' : ((mv :: ms).drop cs).length ≤ L := by
          simp only [List.length_drop, List.length_cons] at hlen ⊢
          omega
        obtain ⟨b2, f2, hrec⟩ := ih _ hlen' m cm hmdrop hcast htc
          (batch ++ (checkAndMark bseen cls.flatten).1)
          (checkAndMark bseen cls.flatten).2
          (fetched ++ (mv :: ms).take cs)
        refine ⟨b2, f2, ?_⟩
        rw [chunkPhase_cons env cs target hcs (List.cons_ne_nil mv ms), hfa]
        dsimp only
        rw [if_neg ht]
        exact hrec

/-- Short-circuit behaviour of the chunk phase: if the target first
appears in the casts of chunk `k` (chunks are `cs`-sized slices of the
work list), the loop stops there: it behaves exactly as if the works
after chunk `k` did not exist, reports found, and the fetched work pages
are precisely the first `k+1` chunks. -/
theorem chunkPhase_shortcircuit_aux (env : Env) (cs : Nat) (target : String)
    (hcs : 0 < cs) :
    ∀ k (movies ck batch bseen fetched : List String),
      flatCasts env ((movies.drop (cs * k)).take cs) = .ok ck →
      target ∈ ck →
      (∀ j, j < k → ∃ cj,
        flatCasts env ((movies.drop (cs * j)).take cs) = .ok cj ∧ target ∉ cj) →
      ∃ b2,
        chunkPhase env cs target movies batch bseen fetched =
          .ok (true, b2, fetched ++ movies.take (cs * (k + 1))) ∧
        chunkPhase env cs target (movies.take (cs * (k + 1))) batch bseen fetched =
          .ok (true, b2, fetched ++ movies.take (cs * (k + 1))) := by
  intro k
  induction k with
  | zero =>
    intro movies ck batch bseen fetched hk htk hearly
    rw [Nat.mul_zero, List.drop_zero] at hk
    obtain ⟨cls, hfa, hflat⟩ := flatCasts_ok hk
    have hne : movies ≠ [] := by
      intro hnil
      subst hnil
      simp only [List.take_nil] at hfa
      have h' : (Except.ok [] : Except Unit (List (List String))) = .ok cls := hfa
      cases h'
      simp only [List.flatten_nil] at hflat
      subst hflat
      simp at htk
    have hmul : cs * (0 + 1) = cs := by ring
    rw [hmul]
    refine ⟨batch ++ ck, ?_, ?_⟩
    · rw [chunkPhase_cons env cs target hcs hne, hfa]
      dsimp only
      rw [hflat, if_pos htk]
    · have hne2 : movies.take cs ≠ [] := by
        simp only [ne_eq, List.take_eq_nil_iff]
        push_neg
        exact ⟨by omega, hne⟩
      rw [chunkPhase_cons env cs target hcs hne2, List.take_take, Nat.min_self, hfa]
      dsimp only
      rw [hflat, if_pos htk]
  | succ k ih =>
    intro movies ck batch bseen fetched hk htk hearly
    obtain ⟨c0, h0, hn0⟩ := hearly 0 (Nat.succ_pos k)
    rw [Nat.mul_zero, List.drop_zero] at h0
    obtain ⟨cls0, hfa0, hflat0⟩ := flatCasts_ok h0
    have hne : movies ≠ [] := by
      intro hnil
      subst hnil
      rw [List.drop_nil, List.take_nil] at hk
      obtain ⟨cls, hfa, hflat⟩ := flatCasts_ok hk
      have h' : (Except.ok [] : Except Unit (List (List String))) = .ok cls := hfa
      cases h'
      simp only [List.flatten_nil] at hflat
      subst hflat
      simp at htk
    have hk' : flatCasts env (((movies.drop cs).drop (cs * k)).take cs) = .ok ck := by
      rw [List.drop_drop]
      have harith : cs + cs * k = cs * (k + 1) := by ring
      rw [harith]
      exact hk
    have hearly' : ∀ j, j < k → ∃ cj,
        flatCasts env (((movies.drop cs).drop (cs * j)).take cs) = .ok cj ∧
          target ∉ cj := by
      intro j hj
      obtain ⟨cj, hcj, hncj⟩ := hearly (j + 1) (by omega)
      refine ⟨cj, ?_, hncj⟩
      rw [List.drop_drop]
      have harith : cs + cs * j = cs * (j + 1) := by ring
      rw [harith]
      exact hcj
    obtain ⟨b2, ih1, ih2⟩ := ih (movies.drop cs) ck
      (batch ++ (checkAndMark bseen c0).1) (checkAndMark bseen c0).2
      (fetched ++ movies.take cs) hk' htk hearly'
    have hmul2 : cs * (k + 1 + 1) = cs + cs * (k + 1) := by ring
    have htake : fetched ++ movies.take cs ++ (movies.drop cs).take (cs * (k + 1)) =
        fetched ++ movies.take (cs * (k + 1 + 1)) := by
      rw [List.append_assoc]
      congr 1
      rw [hmul2, List.take_add]
    refine ⟨b2, ?_, ?_⟩
    · rw [chunkPhase_cons env cs target hcs hne, hfa0]
      dsimp only
      rw [hflat0, if_neg hn0, ih1, htake]
    · have hne2 : movies.take (cs * (k + 1 + 1)) ≠ [] := by
        simp only [ne_eq, List.take_eq_nil_iff]
        push_neg
        refine ⟨?_, hne⟩
        have hpos : 0 < cs * (k + 1 + 1) := Nat.mul_pos hcs (by omega)
        omega
      have htt : (movies.take (cs * (k + 1 + 1))).take cs = movies.take cs := by
        rw [List.take_take]
        have hle : cs ≤ cs * (k + 1 + 1) := by
          have := Nat.mul_le_mul_left cs (show 1 ≤ k + 1 + 1 by omega)
          simpa using this
        rw [Nat.min_eq_left hle]
      have hdt : (movies.take (cs * (k + 1 + 1))).drop cs =
          (movies.drop cs).take (cs * (k + 1)) := by
        rw [hmul2]
        exact (List.take_drop cs _ movies).symm
      rw [chunkPhase_cons env cs target hcs hne2, htt, hfa0]
      dsimp only
      rw [hflat0, if_neg hn0, hdt, ih2, htake]

/-! ## Separated environments never meet -/

theorem hasCommon_eq_false_of_sides {SA : String → Bool} {u v : Bool} (huv : u ≠ v)
    {a b : List String} (ha : ∀ x ∈ a, SA x = u) (hb : ∀ x ∈ b, SA x = v) :
    hasCommon a b = false := by
  unfold hasCommon
  rw [List.any_eq_false]
  intro x hx
  intro hxb
  exact huv ((ha x hx).symm.trans (hb x (List.elem_iff.mp hxb)))

/-- Within one colour class, the chunk phase succeeds, its batch stays
in the class, and a target of the other colour is never found. -/
theorem chunkPhase_sides {env : Env} {SA SM : String → Bool} (hside : SideOk env SA SM)
    {cs : Nat} (hcs : 0 < cs) {target : String} {v : Bool} :
    ∀ L (movies : List String), movies.length ≤ L → (∀ m ∈ movies, SM m = v) →
      ∀ batch bseen fetched, (∀ x ∈ batch, SA x = v) →
      ∃ fnd b2 f2,
        chunkPhase env cs target movies batch bseen fetched = .ok (fnd, b2, f2) ∧
        (∀ x ∈ b2, SA x = v) ∧ (SA target ≠ v → fnd = false) := by
  intro L
  induction L with
  | zero =>
    intro movies hlen _ batch bseen fetched hbatch
    have hm : movies = [] := List.eq_nil_of_length_eq_zero (Nat.le_zero.mp hlen)
    subst hm
    exact ⟨false, batch, fetched, chunkPhase_nil env cs target batch bseen fetched,
           hbatch, fun _ => rfl⟩
  | succ L ih =>
    intro movies hlen hm batch bseen fetched hbatch
    match movies, hlen, hm with
    | [], _, _ =>
      exact ⟨false, batch, fetched, chunkPhase_nil env cs target batch bseen fetched,
             hbatch, fun _ => rfl⟩
    | mv :: ms, hlen, hm =>
      obtain ⟨cls, hfa⟩ := fetchAll_ok_of_total hside.cast_total ((mv :: ms).take cs)
      have hflat_side : ∀ y ∈ cls.flatten, SA y = v := by
        intro y hy
        obtain ⟨mm, hmm, ys, hys, hyy⟩ := fetchAll_flatten_mem hfa hy
        rw [hside.cast_side mm ys hys y hyy, hm mm (List.take_subset _ _ hmm)]
      by_cases ht : target ∈ cls.flatten
      · refine ⟨true, batch ++ cls.flatten, fetched ++ (mv :: ms).take cs, ?_, ?_, ?_⟩
        · rw [chunkPhase_cons env cs target hcs (List.cons_ne_nil mv ms), hfa]
          dsimp only
          rw [if_pos ht]
        · intro x hx
          rcases List.mem_append.mp hx with hx | hx
          · exact hbatch x hx
          · exact hflat_side x hx
        · intro hne
          exact absurd (hflat_side target ht) hne
      · have hlen' : ((mv :: ms).drop cs).length ≤ L := by
          simp only [List.length_drop, List.length_cons] at hlen ⊢
          omega
        have hm' : ∀ m ∈ (mv :: ms).drop cs, SM m = v :=
          fun m hmm => hm m (List.drop_subset _ _ hmm)
        have hb' : ∀ x ∈ batch ++ (checkAndMark bseen cls.flatten).1, SA x = v := by
          intro x hx
          rcases List.mem_append.mp hx with hx | hx
          · exact hbatch x hx
          · exact hflat_side x (checkAndMark_fst_subset hx)
        obtain ⟨fnd, b2, f2, hrec, hb2, hf⟩ := ih _ hlen' hm' _ _ _ hb'
        refine ⟨fnd, b2, f2, ?_, hb2, hf⟩
        rw [chunkPhase_cons env cs target hcs (List.cons_ne_nil mv ms), hfa]
        dsimp only
        rw [if_neg ht]
        exact hrec

/-- Within one colour class, `bfs` succeeds, its batch stays in the
class, and a target of the other colour is never found. -/
theorem bfs_sides {env : Env} {SA SM : String → Bool} (hside : SideOk env SA SM)
    {cs : Nat} (hcs : 0 < cs) {target : String} {v : Bool} {urls sa sm : List String}
    (hurls : ∀ x ∈ urls, SA x = v) :
    ∃ out, bfs env cs urls sa sm target = .ok out ∧
      (∀ x ∈ out.batch, SA x = v) ∧ (SA target ≠ v → out.found = false) := by
  obtain ⟨filmogs, hfa⟩ :=
    fetchAll_ok_of_total hside.filmography_total (checkAndMark sa urls).1
  have hmovside : ∀ m ∈ (checkAndMark sm filmogs.flatten).1, SM m = v := by
    intro m hm
    obtain ⟨x, hx, ms, hms, hmm⟩ := fetchAll_flatten_mem hfa (checkAndMark_fst_subset hm)
    rw [hside.filmography_side x ms hms m hmm, hurls x (checkAndMark_fst_subset hx)]
  obtain ⟨fnd, b2, f2, hcp, hb2, hf⟩ :=
    chunkPhase_sides hside hcs _ _ (le_refl _) hmovside [] [] [] (by simp)
  refine ⟨⟨fnd, b2, (checkAndMark sa urls).2, (checkAndMark sm filmogs.flatten).2,
          (checkAndMark sa urls).1, f2⟩, ?_, hb2, hf⟩
  unfold bfs
  dsimp only
  rw [hfa]
  dsimp only
  rw [hcp]

/-- In a separated environment, a round never terminates: both
expansions miss their (other-coloured) targets, all intersections are
empty, and the invariant carries to the successor state. -/
theorem searchRound_sep {env : Env} {SA SM : String → Bool} (hside : SideOk env SA SM)
    {cs : Nat} (hcs : 0 < cs) {su eu : String}
    (hsu : SA su = true) (heu : SA eu = false) {s : SearchState}
    (hinv : SepInv SA s) :
    ∃ s', searchRound env cs su eu s = .next s' ∧ SepInv SA s' := by
  obtain ⟨hfw, hbw, hfne, hbne⟩ := hinv
  obtain ⟨fcur, frest, hf⟩ : ∃ fcur frest, s.forward = fcur :: frest := by
    cases hc : s.forward with
    | nil => exact absurd hc hfne
    | cons a l => exact ⟨a, l, rfl⟩
  obtain ⟨bcur, brest, hb⟩ : ∃ bcur brest, s.backward = bcur :: brest := by
    cases hc : s.backward with
    | nil => exact absurd hc hbne
    | cons a l => exact ⟨a, l, rfl⟩
  have hfcur : ∀ x ∈ fcur, SA x = true := hfw fcur (hf ▸ List.mem_cons_self _ _)
  have hbcur : ∀ x ∈ bcur, SA x = false := hbw bcur (hb ▸ List.mem_cons_self _ _)
  obtain ⟨f, hbf, hfbatch, hffound⟩ :=
    @bfs_sides env SA SM hside cs hcs eu true fcur s.seen_actors s.seen_movies hfcur
  have hff : f.found = false := hffound (by simp [heu])
  obtain ⟨b, hbb, hbbatch, hbfound⟩ :=
    @bfs_sides env SA SM hside cs hcs su false bcur f.seen_actors f.seen_movies hbcur
  have hbf2 : b.found = false := hbfound (by simp [hsu])
  have hc1 : hasCommon f.batch bcur = false :=
    hasCommon_eq_false_of_sides (by simp) hfbatch hbcur
  have hc2 : hasCommon b.batch fcur = false :=
    hasCommon_eq_false_of_sides (by simp) hbbatch hfcur
  have hc3 : hasCommon f.batch b.batch = false :=
    hasCommon_eq_false_of_sides (by simp) hfbatch hbbatch
  refine ⟨⟨frest ++ [f.batch], brest ++ [b.batch],
          b.seen_actors, b.seen_movies, s.distance + 1⟩, ?_, ?_, ?_, by simp, by simp⟩
  · rw [searchRound_eq_ok hf hb hbf hbb, if_neg (by simp [hff]), if_neg (by simp [hc1]),
      if_neg (by simp [hbf2]), if_neg (by simp [hc2]), if_neg (by simp [hc3])]
  · intro l hl
    rcases List.mem_append.mp hl with hl | hl
    · exact hfw l (hf ▸ List.mem_cons_of_mem _ hl)
    · rw [List.mem_singleton.mp hl]
      exact hfbatch
  · intro l hl
    rcases List.mem_append.mp hl with hl | hl
    · exact hbw l (hb ▸ List.mem_cons_of_mem _ hl)
    · rw [List.mem_singleton.mp hl]
      exact hbbatch

/-- In a separated environment the round loop runs to the depth limit
and exits normally with the unreachable result. -/
theorem searchLoopF_sep {env : Env} {SA SM : String → Bool} (hside : SideOk env SA SM)
    {cs : Nat} (hcs : 0 < cs) {su eu : String}
    (hsu : SA su = true) (heu : SA eu = false) {dl : Nat} :
    ∀ fuel (s : SearchState), SepInv SA s →
      searchLoopF env cs su eu dl fuel s = .unreachable := by
  intro fuel
  induction fuel with
  | zero => intro s _; rfl
  | succ fuel ih =>
    intro s hinv
    simp only [searchLoopF]
    by_cases hd : s.distance < dl
    · rw [if_pos hd]
      obtain ⟨s', hr, hinv'⟩ := searchRound_sep hside hcs hsu heu hinv
      rw [hr]
      exact ih s' hinv'
    · rw [if_neg hd]

/-! ## Claims -/

/-- C1: for every round of the search loop with current distance
`d < depthLimit`, the returned distance follows the termination rule
table, checked in this order: forward expansion found the end person →
`d + 1`; the next forward level intersects the current backward level →
`2d + 1`; backward expansion found the start person → `d + 1`; the next
backward level intersects the current forward level → `2d + 1`; the two
next levels intersect → `2d + 2`; otherwise the loop continues from the
successor state. -/
theorem round_rule_table {env : Env} {cs : Nat} {su eu : String} {dl : Nat}
    {s : SearchState} {fcur bcur : List String} {frest brest : List (List String)}
    {f b : BfsOut}
    (hd : s.distance < dl)
    (hf : s.forward = fcur :: frest) (hb : s.backward = bcur :: brest)
    (hbf : bfs env cs fcur s.seen_actors s.seen_movies eu = .ok f)
    (hbb : bfs env cs bcur f.seen_actors f.seen_movies su = .ok b) :
    searchLoop env cs su eu dl s =
      if f.found then .found (s.distance + 1)
      else if hasCommon f.batch bcur then .found (2 * s.distance + 1)
      else if b.found then .found (s.distance + 1)
      else if hasCommon b.batch fcur then .found (2 * s.distance + 1)
      else if hasCommon f.batch b.batch then .found (2 * s.distance + 2)
      else searchLoop env cs su eu dl
        ⟨frest ++ [f.batch], brest ++ [b.batch],
         b.seen_actors, b.seen_movies, s.distance + 1⟩ := by
  have hr := searchRound_eq_ok hf hb hbf hbb
  by_cases h1 : f.found = true
  · rw [if_pos h1]
    exact searchLoop_halt hd (by rw [hr, if_pos h1])
  · rw [if_neg h1]
    by_cases h2 : hasCommon f.batch bcur = true
    · rw [if_pos h2]
      exact searchLoop_halt hd (by rw [hr, if_neg h1, if_pos h2])
    · rw [if_neg h2]
      by_cases h3 : b.found = true
      · rw [if_pos h3]
        exact searchLoop_halt hd (by rw [hr, if_neg h1, if_neg h2, if_pos h3])
      · rw [if_neg h3]
        by_cases h4 : hasCommon b.batch fcur = true
        · rw [if_pos h4]
          exact searchLoop_halt hd
            (by rw [hr, if_neg h1, if_neg h2, if_neg h3, if_pos h4])
        · rw [if_neg h4]
          by_cases h5 : hasCommon f.batch b.batch = true
          · rw [if_pos h5]
            exact searchLoop_halt hd
              (by rw [hr, if_neg h1, if_neg h2, if_neg h3, if_neg h4, if_pos h5])
          · rw [if_neg h5]
            exact searchLoop_next hd
              (by rw [hr, if_neg h1, if_neg h2, if_neg h3, if_neg h4, if_neg h5])

/-- Witness for C1: in `envDirect` the forward expansion of A finds B,
so the first rule fires and the search returns distance 0 + 1. -/
theorem round_rule_table_witness :
    searchLoop envDirect 10 "A" "B" 3 ⟨[["A"]], [["B"]], [], [], 0⟩ = .found 1 :=
  (@round_rule_table envDirect 10 "A" "B" 3 ⟨[["A"]], [["B"]], [], [], 0⟩
    ["A"] ["B"] [] []
    ⟨true, ["A", "B"], ["A"], ["M1"], ["A"], ["M1"]⟩
    ⟨false, [], ["B", "A"], ["M1"], ["B"], []⟩
    (by decide) rfl rfl rfl rfl).trans (by decide)

/-- C3: a transport failure (non-success remote response) in either
expansion of a round aborts the whole search with the Blocked result;
no finite distance is returned from that call. -/
theorem transport_error_blocked {env : Env} {cs : Nat} {su eu : String} {dl : Nat}
    {s : SearchState} {fcur bcur : List String} {frest brest : List (List String)}
    (hd : s.distance < dl)
    (hf : s.forward = fcur :: frest) (hb : s.backward = bcur :: brest)
    (herr : bfs env cs fcur s.seen_actors s.seen_movies eu = .error () ∨
      ∃ f, bfs env cs fcur s.seen_actors s.seen_movies eu = .ok f ∧
        f.found = false ∧ hasCommon f.batch bcur = false ∧
        bfs env cs bcur f.seen_actors f.seen_movies su = .error ()) :
    searchLoop env cs su eu dl s = .blocked := by
  rcases herr with herr | ⟨f, hok, hff, hc, herr⟩
  · exact searchLoop_halt hd (searchRound_forward_error hf hb herr)
  · exact searchLoop_halt hd (searchRound_backward_error hf hb hok hff hc herr)

/-- Witness for C3: every fetch fails in `envErr`, so the search is
blocked. -/
theorem transport_error_blocked_witness :
    searchLoop envErr 10 "A" "B" 3 ⟨[["A"]], [["B"]], [], [], 0⟩ = .blocked :=
  @transport_error_blocked envErr 10 "A" "B" 3 ⟨[["A"]], [["B"]], [], [], 0⟩
    ["A"] ["B"] [] [] (by decide) rfl rfl (Or.inl rfl)

/-- C7: any finite distance returned by `get_movie_distance` is a
natural number (hence non-negative) bounded by twice the depth limit. -/
theorem distance_le_twice_depth_limit {env : Env} {a b : String} {dlim cs n : Nat}
    (hpos : 0 < dlim)
    (h : get_movie_distance env a b dlim cs = .found n) : n ≤ 2 * dlim := by
  unfold get_movie_distance searchLoop at h
  rw [if_neg (by omega : ¬ dlim = 0)] at h
  exact searchLoopF_found_le _ _ _ h

/-- Witness for C7: `envDirect` gives distance 1 under depth limit 3,
and 1 is within the bound 2·3. -/
theorem distance_le_twice_depth_limit_witness : 0 < 3 ∧ 1 ≤ 2 * 3 :=
  ⟨by decide, @distance_le_twice_depth_limit envDirect "A" "B" 3 10 1
    (by decide) (by decide)⟩

/-- C8: if at the start of a round (current distance below the depth
limit) either frontier deque is empty, the search fails with the fatal
Exhausted error — a result distinct from any finite distance and from
the positive-infinity result. -/
theorem exhausted_on_empty_frontier {env : Env} {cs : Nat} {su eu : String} {dl : Nat}
    {s : SearchState} (hd : s.distance < dl)
    (he : s.forward = [] ∨ s.backward = []) :
    searchLoop env cs su eu dl s = .exhausted := by
  rcases he with he | he
  · exact searchLoop_halt hd (searchRound_forward_nil he)
  · exact searchLoop_halt hd (searchRound_backward_nil he)

/-- Witness for C8: an empty forward frontier is reported as
exhausted. -/
theorem exhausted_on_empty_frontier_witness :
    searchLoop envTriv 10 "A" "B" 3 ⟨[], [["B"]], [], [], 0⟩ = .exhausted :=
  exhausted_on_empty_frontier (by decide) (Or.inl rfl)

/-- C9: in the chain A–(M1)–B–(M2)–D with depth limit 3 the search
returns exactly distance 2, detected in the first round by the
next-forward/next-backward intersection rule. -/
theorem scenario_chain_distance_two :
    get_movie_distance env9 "A" "D" 3 10 = .found 2 := by decide

/-- C4 as stated is refuted: once A has been inserted into the shared
SeenActors set (round 0), it still re-appears in the next-level batch of
a later `bfs` call (round 1), because batches are deduplicated only
within themselves, not against SeenActors.  Concretely: the first round
of the search over `env4` puts A into the seen set, and the round-1
forward expansion of B returns the batch `["A", "C"]`. -/
theorem seen_id_reappears_counterexample :
    searchRound env4 10 "A" "Z" ⟨[["A"]], [["Z"]], [], [], 0⟩ =
      .next ⟨[["B"]], [["Y"]], ["Z", "A"], ["N1", "M1"], 1⟩ ∧
    "A" ∈ (["Z", "A"] : List String) ∧
    bfs env4 10 ["B"] ["Z", "A"] ["N1", "M1"] "Z" =
      .ok ⟨false, ["A", "C"], ["B", "Z", "A"], ["M2", "N1", "M1"], ["B"], ["M2"]⟩ ∧
    "A" ∈ (["A", "C"] : List String) :=
  ⟨rfl, by decide, rfl, by decide⟩

/-- C4 amended: once an id is in a seen-set it is never expanded
(fetched) again — every person page fetched by a `bfs` call is outside
the incoming SeenActors set and every work page fetched is outside the
incoming SeenMovies set, and both sets only grow — but a seen person id
may still re-appear in a returned next-level batch (it is dropped only
when that batch is itself expanded). -/
theorem seen_ids_never_refetched {env : Env} {cs : Nat}
    {urls sa sm : List String} {target : String} {out : BfsOut}
    (hcs : 0 < cs) (h : bfs env cs urls sa sm target = .ok out) :
    (∀ x ∈ sa, x ∉ out.actorFetches ∧ x ∈ out.seen_actors) ∧
    (∀ w ∈ sm, w ∉ out.movieFetches ∧ w ∈ out.seen_movies) := by
  unfold bfs at h
  dsimp only at h
  cases hfa : fetchAll env.filmography (checkAndMark sa urls).1 <;> rw [hfa] at h
  · exact absurd h (by simp)
  · rename_i filmogs
    dsimp only at h
    cases hcp : chunkPhase env cs target (checkAndMark sm filmogs.flatten).1 [] [] [] <;>
      rw [hcp] at h
    · exact absurd h (by simp)
    · rename_i c
      obtain ⟨fnd, b2, f2⟩ := c
      dsimp only at h
      simp only [Except.ok.injEq] at h
      subst h
      constructor
      · intro x hx
        exact ⟨fun hmem => checkAndMark_fst_not_seen hmem hx,
               mem_checkAndMark_snd.mpr (Or.inl hx)⟩
      · intro w hw
        refine ⟨fun hmem => ?_, mem_checkAndMark_snd.mpr (Or.inl hw)⟩
        rcases chunkPhase_fetched_mem env cs target hcs _ _ (le_refl _) _ _ _ _ _ _
            hcp w hmem with h' | h'
        · simp at h'
        · exact checkAndMark_fst_not_seen h' hw

/-- Witness for the amended C4: in the round-1 call over `env4`, the
already-seen A is not among the fetched person pages and stays in the
output seen set. -/
theorem seen_ids_never_refetched_witness :
    "A" ∉ (["B"] : List String) ∧ "A" ∈ (["B", "Z", "A"] : List String) :=
  (seen_ids_never_refetched (by decide)
    (rfl : bfs env4 10 ["B"] ["Z", "A"] ["N1", "M1"] "Z" =
      .ok ⟨false, ["A", "C"], ["B", "Z", "A"], ["M2", "N1", "M1"], ["B"], ["M2"]⟩)).1
    "A" (by decide)

/-- C5: chunking short-circuit.  For a `bfs` call whose deduplicated
work list `movies` is longer than `chunk_size`, if the target appears in
the casts of chunk `k` and in no earlier chunk, then the call reports
found, no work of any chunk after `k` is fetched (the fetched works are
exactly the first `k+1` chunks), and the returned batch is exactly what
processing only those chunks accumulates. -/
theorem chunking_shortcircuit {env : Env} {cs : Nat} {target : String}
    {urls sa sm : List String} {filmogs : List (List String)}
    {movies ck : List String} {k : Nat}
    (hcs : 0 < cs)
    (hfetch : fetchAll env.filmography (checkAndMark sa urls).1 = .ok filmogs)
    (hmovies : (checkAndMark sm filmogs.flatten).1 = movies)
    (hlen : cs < movies.length)
    (hk : flatCasts env ((movies.drop (cs * k)).take cs) = .ok ck)
    (htk : target ∈ ck)
    (hearly : ∀ j, j < k → ∃ cj,
      flatCasts env ((movies.drop (cs * j)).take cs) = .ok cj ∧ target ∉ cj) :
    ∃ b2,
      bfs env cs urls sa sm target =
        .ok ⟨true, b2, (checkAndMark sa urls).2, (checkAndMark sm filmogs.flatten).2,
             (checkAndMark sa urls).1, movies.take (cs * (k + 1))⟩ ∧
      chunkPhase env cs target (movies.take (cs * (k + 1))) [] [] [] =
        .ok (true, b2, movies.take (cs * (k + 1))) := by
  obtain ⟨b2, h1, h2⟩ :=
    chunkPhase_shortcircuit_aux env cs target hcs k movies ck [] [] [] hk htk hearly
  rw [List.nil_append] at h1 h2
  refine ⟨b2, ?_, h2⟩
  unfold bfs
  dsimp only
  rw [hfetch]
  dsimp only
  rw [hmovies, h1]

/-- Witness for C5: three works chunked by 2, the target T in the cast
of M2 (first chunk): the call short-circuits after the first chunk and
M3 is never fetched. -/
theorem chunking_shortcircuit_witness :
    ∃ b2,
      bfs env5 2 ["A"] [] [] "T" =
        .ok ⟨true, b2, (checkAndMark [] ["A"]).2,
             (checkAndMark [] [["M1", "M2", "M3"]].flatten).2,
             (checkAndMark [] ["A"]).1, (["M1", "M2", "M3"] : List String).take (2 * (0 + 1))⟩ ∧
      chunkPhase env5 2 "T" ((["M1", "M2", "M3"] : List String).take (2 * (0 + 1))) [] [] [] =
        .ok (true, b2, (["M1", "M2", "M3"] : List String).take (2 * (0 + 1))) :=
  @chunking_shortcircuit env5 2 "T" ["A"] [] [] [["M1", "M2", "M3"]]
    ["M1", "M2", "M3"] ["X", "T"] 0 (by decide) rfl rfl (by decide) rfl (by decide)
    (fun j hj => absurd hj (by omega))

/-- C6 as stated is refuted: when the target is found, the final chunk
is appended to the batch with no deduplication, so a person (X) whose id
occurs in the casts of two different works of the same expansion (M1 and
M2) appears twice in the returned batch. -/
theorem batch_dedup_counterexample :
    env6.cast "M1" = .ok ["X", "T"] ∧
    env6.cast "M2" = .ok ["X"] ∧
    bfs env6 2 ["A"] [] [] "T" =
      .ok ⟨true, ["X", "T", "X"], ["A"], ["M2", "M1"], ["A"], ["M1", "M2"]⟩ ∧
    (["X", "T", "X"] : List String).count "X" = 2 :=
  ⟨rfl, rfl, rfl, by decide⟩

/-- C6 amended: in every `bfs` call that returns found = false, the
returned next-level batch contains each person id at most once; the
undeduplicated batch can only escape through the found short-circuit,
where the search discards it immediately. -/
theorem batch_dedup_of_not_found {env : Env} {cs : Nat}
    {urls sa sm : List String} {target : String} {out : BfsOut}
    (hcs : 0 < cs) (h : bfs env cs urls sa sm target = .ok out)
    (hnf : out.found = false) : out.batch.Nodup := by
  unfold bfs at h
  dsimp only at h
  cases hfa : fetchAll env.filmography (checkAndMark sa urls).1 <;> rw [hfa] at h
  · exact absurd h (by simp)
  · rename_i filmogs
    dsimp only at h
    cases hcp : chunkPhase env cs target (checkAndMark sm filmogs.flatten).1 [] [] [] <;>
      rw [hcp] at h
    · exact absurd h (by simp)
    · rename_i c
      obtain ⟨fnd, b2, f2⟩ := c
      dsimp only at h
      simp only [Except.ok.injEq] at h
      subst h
      have hnf' : fnd = false := hnf
      subst hnf'
      exact chunkPhase_nodup env cs target hcs _ _ (le_refl _) _ _ _ _ _
        List.nodup_nil (by simp) hcp

/-- Witness for the amended C6: the same expansion as the
counterexample but with an absent target returns the deduplicated batch
`["X", "T"]`. -/
theorem batch_dedup_of_not_found_witness : (["X", "T"] : List String).Nodup :=
  batch_dedup_of_not_found (by decide)
    (rfl : bfs env6 2 ["A"] [] [] "Q" =
      .ok ⟨false, ["X", "T"], ["A"], ["M2", "M1"], ["A"], ["M1", "M2"]⟩) rfl

/-- C10: with equal endpoints, whenever the person's extracted
filmography (under the configured limits) has a work whose extracted
cast contains the person itself and no cast fetch fails, the search
returns distance 1, not 0: there is no zero-distance shortcut and no
input validation before the round loop. -/
theorem equal_endpoints_distance_one {env : Env} {a : String} {dlim cs : Nat}
    {fs cm : List String} {m : String}
    (hcs : 0 < cs)
    (htot : ∀ x, ∃ c, env.cast x = .ok c)
    (hfs : env.filmography (removeWWW a) = .ok fs)
    (hm : m ∈ fs) (hcast : env.cast m = .ok cm) (hself : removeWWW a ∈ cm) :
    get_movie_distance env a a dlim cs = .found 1 := by
  have hsurv : checkAndMark [] [removeWWW a] = ([removeWWW a], [removeWWW a]) := rfl
  have hfetch : fetchAll env.filmography [removeWWW a] = .ok [fs] := by
    simp only [fetchAll]
    rw [hfs]
  have hmem : m ∈ (checkAndMark [] fs).1 :=
    checkAndMark_fst_mem hm (by simp)
  obtain ⟨b2, f2, hcp⟩ :=
    chunkPhase_found env cs (removeWWW a) hcs htot _ _ (le_refl _) m cm hmem hcast hself
      [] [] []
  have hbfs : bfs env cs [removeWWW a] [] [] (removeWWW a) =
      .ok ⟨true, b2, [removeWWW a], (checkAndMark [] fs).2, [removeWWW a], f2⟩ := by
    unfold bfs
    rw [hsurv]
    dsimp only
    rw [hfetch]
    dsimp only
    simp only [List.flatten_cons, List.flatten_nil, List.append_nil]
    rw [hcp]
  exact searchLoop_halt (by dsimp only; split <;> omega)
    (searchRound_forward_found rfl rfl hbfs rfl)

/-- Witness for C10: the self-loop A–(M)–A returns distance 1. -/
theorem equal_endpoints_distance_one_witness :
    get_movie_distance envSelf "A" "A" 3 10 = .found 1 :=
  @equal_endpoints_distance_one envSelf "A" 3 10 ["M"] ["A"] "M" (by decide)
    (fun x => ⟨if x = "M" then ["A"] else [], rfl⟩) rfl (by decide) rfl (by decide)

/-- C2: when the two seeds' lazily discovered collaboration graphs
share no collaborator — formalised as a colouring of person and work
ids separating the two components, respected by extraction, with no
transport failures — the search completes its depth-limit rounds with
no termination rule ever firing and returns the unreachable sentinel
(positive infinity), exiting the round loop normally rather than
through a frontier-dequeue failure (the result is `unreachable`, not
`exhausted`). -/
theorem disjoint_components_unreachable {env : Env} {SA SM : String → Bool}
    (hside : SideOk env SA SM) {a b : String} {dlim cs : Nat} (hcs : 0 < cs)
    (hsu : SA (removeWWW a) = true) (heu : SA (removeWWW b) = false) :
    get_movie_distance env a b dlim cs = .unreachable := by
  unfold get_movie_distance searchLoop
  apply searchLoopF_sep hside hcs hsu heu
  refine ⟨?_, ?_, by simp, by simp⟩
  · intro l hl x hx
    rw [List.mem_singleton.mp hl] at hx
    rw [List.mem_singleton.mp hx]
    exact hsu
  · intro l hl x hx
    rw [List.mem_singleton.mp hl] at hx
    rw [List.mem_singleton.mp hx]
    exact heu

/-- Witness for C2: the disconnected components A–(M1)–A and D–(M2)–D
give the unreachable result. -/
theorem disjoint_components_unreachable_witness :
    get_movie_distance envSep "A" "D" 3 10 = .unreachable := by
  refine @disjoint_components_unreachable envSep sideA sideM
    ⟨?_, ?_, fun x => ⟨_, rfl⟩, fun x => ⟨_, rfl⟩⟩ "A" "D" 3 10
    (by decide) (by decide) (by decide)
  · intro x ms h m hm
    have hdef : envSep.filmography x =
        .ok (if x = "A" then ["M1"] else if x = "D" then ["M2"] else []) := rfl
    rw [hdef] at h
    have h' := Except.ok.inj h
    subst h'
    by_cases hA : x = "A"
    · rw [if_pos hA] at hm
      rw [List.mem_singleton.mp hm, hA]
      decide
    · rw [if_neg hA] at hm
      by_cases hD : x = "D"
      · rw [if_pos hD] at hm
        rw [List.mem_singleton.mp hm, hD]
        have hAD : sideA "D" = false := by decide
        rw [hAD]
        decide
      · rw [if_neg hD] at hm
        simp at hm
  · intro x ps h p hp
    have hdef : envSep.cast x =
        .ok (if x = "M1" then ["A"] else if x = "M2" then ["D"] else []) := rfl
    rw [hdef] at h
    have h' := Except.ok.inj h
    subst h'
    by_cases hA : x = "M1"
    · rw [if_pos hA] at hp
      rw [List.mem_singleton.mp hp, hA]
      decide
    · rw [if_neg hA] at hp
      by_cases hD : x = "M2"
      · rw [if_pos hD] at hp
        rw [List.mem_singleton.mp hp, hD]
        decide
      · rw [if_neg hD] at hp
        simp at hp

end ImdbDistance
